import Mathlib

/-!
Shallow embedding of the archer dependency-graph core: the Project/Dependency/
Size/Projects domain model and the two gradle text parsers.

Modelling conventions:
* Go maps (map[string]T) are embedded as association lists (List (String × T)),
  with assignment replacing the binding for an existing key and appending a new
  binding otherwise.  The one exception is Size.Other, which is embedded
  extensionally as the total lookup function String → Int (absent key = 0),
  since the merge operation observes only the looked-up values.
* Go pointers to registry-owned Project nodes are embedded as the registry key
  under which the node is stored; pointer identity becomes key identity, and
  mutation through a pointer becomes an update of the registry entry.
* Go panics (empty root/name in registry lookups) are embedded as the `none`
  branch of an Option-valued result.
* Go ints are embedded as Int; Go len of an ASCII string is its byte length,
  embedded as String.utf8ByteSize (identical to the char count on ASCII data).
* sort.Slice is embedded as insertion sort over the literal Go comparator;
  sort.Slice promises a sorted result exactly when the comparator is a strict
  weak order, which is what the sortedness theorems below establish and refute.
-/

namespace Archer

/-- The apostrophe character, written via its code point. -/
def quoteChar : Char := Char.ofNat 39

/-- Association-list lookup, embedding a Go map read m[k]. -/
def mapLookup {α : Type} : List (String × α) → String → Option α
  | [], _ => none
  | kv :: rest, k => if kv.1 = k then some kv.2 else mapLookup rest k

/-- Association-list assignment, embedding a Go map write m[k] = v:
the existing binding is replaced in place, a new key is appended. -/
def mapInsert {α : Type} : List (String × α) → String → α → List (String × α)
  | [], k, v => [(k, v)]
  | kv :: rest, k, v => if kv.1 = k then (k, v) :: rest else kv :: mapInsert rest k v

/-- Association-list removal, embedding a Go delete(m, k). -/
def mapErase {α : Type} : List (String × α) → String → List (String × α)
  | [], _ => []
  | kv :: rest, k => if kv.1 = k then mapErase rest k else kv :: mapErase rest k

/-- ProjectType from the source: ExternalDependencyType is the zero value. -/
inductive ProjectType where
  | ExternalDependencyType
  | CodeType
  | DatabaseType
deriving DecidableEq, Repr

/-- FilterType from the source. -/
inductive FilterType where
  | FilterAll
  | FilterExcludeExternal
deriving DecidableEq, Repr

/-- Size from the source; Other embeds the Go map[string]int extensionally. -/
structure Size where
  Lines : Int
  Files : Int
  Bytes : Int
  Other : String → Int

/-- The zero Size (all counters zero, empty Other map). -/
def emptySize : Size := { Lines := 0, Files := 0, Bytes := 0, Other := fun _ => 0 }

/-- Size.Add from the source, written functionally (Go mutates the receiver):
field-by-field addition, with Other merged by summing matching keys. -/
def Size.Add (l other : Size) : Size :=
  { Lines := l.Lines + other.Lines
    Files := l.Files + other.Files
    Bytes := l.Bytes + other.Bytes
    Other := fun k => l.Other k + other.Other k }

/-- Dependency from the source.  Source and Target are Go pointers to
registry-owned projects, embedded as the registry keys of those projects. -/
structure Dependency where
  Source : String
  Target : String
  config : List (String × String)
deriving DecidableEq, Repr

/-- Project from the source. -/
structure Project where
  Root : String
  Name : String
  NameParts : List String
  Typ : ProjectType
  RootDir : String
  Dir : String
  ProjectFile : String
  dependencies : List (String × Dependency)
  size : List (String × Size)
  config : List (String × String)
  dataDir : String

/-- NewProject from the source; unmentioned fields take the Go zero values. -/
def NewProject (root name : String) : Project :=
  { Root := root
    Name := name
    NameParts := []
    Typ := ProjectType.ExternalDependencyType
    RootDir := ""
    Dir := ""
    ProjectFile := ""
    dependencies := []
    size := []
    config := []
    dataDir := "" }

/-- The registry key under which a node is stored (root + newline + name),
standing in for the Go pointer to the node. -/
def Project.key (p : Project) : String := p.Root ++ "\n" ++ p.Name

/-- Project.AddDependency from the source: a fresh edge with an empty
configuration replaces any edge already stored under the target's bare name.
Returns the updated source project together with the new edge. -/
def Project.AddDependency (p : Project) (d : Project) : Project × Dependency :=
  let result : Dependency := { Source := p.key, Target := d.key, config := [] }
  ({ p with dependencies := mapInsert p.dependencies d.Name result }, result)

/-- Project.FullName from the source. -/
def Project.FullName (p : Project) : String := p.Root ++ ":" ++ p.Name

/-- Project.IsCode from the source. -/
def Project.IsCode (p : Project) : Bool := p.Typ = ProjectType.CodeType

/-- Project.IsExternalDependency from the source. -/
def Project.IsExternalDependency (p : Project) : Bool :=
  p.Typ = ProjectType.ExternalDependencyType

/-- Project.GetConfig from the source: the stored value, or "" when absent. -/
def Project.GetConfig (p : Project) (config : String) : String :=
  (mapLookup p.config config).getD ""

/-- Project.SetConfig from the source, written functionally: no-op when the
value is unchanged, deletion when the new value is empty, overwrite otherwise.
The Bool reports whether anything changed. -/
def Project.SetConfig (p : Project) (config value : String) : Project × Bool :=
  if p.GetConfig config = value then (p, false)
  else if value = "" then ({ p with config := mapErase p.config config }, true)
  else ({ p with config := mapInsert p.config config value }, true)

/-- Dependency.GetConfig from the source. -/
def Dependency.GetConfig (d : Dependency) (config : String) : String :=
  (mapLookup d.config config).getD ""

/-- Dependency.SetConfig from the source, same contract as Project.SetConfig. -/
def Dependency.SetConfig (d : Dependency) (config value : String) : Dependency × Bool :=
  if d.GetConfig config = value then (d, false)
  else if value = "" then ({ d with config := mapErase d.config config }, true)
  else ({ d with config := mapInsert d.config config value }, true)

/-- Tests whether s begins with the characters pre, returning the remainder
(embeds strings.HasPrefix and the literal-prefix steps of the regexes). -/
def dropLit : List Char → List Char → Option (List Char)
  | [], cs => some cs
  | _ :: _, [] => none
  | p :: ps, c :: cs => if c = p then dropLit ps cs else none

/-- strings.HasPrefix(s, pre) from the Go standard library. -/
def hasPrefixStr (pre s : String) : Bool := (dropLit pre.toList s.toList).isSome

/-- simplifyPrefixes from the source: while at least two parts remain and the
second begins with the first, drop the first. -/
def simplifyPrefixes : List String → List String
  | p0 :: p1 :: rest =>
    if hasPrefixStr p0 p1 then simplifyPrefixes (p1 :: rest) else p0 :: p1 :: rest
  | l => l

/-- strings.Join(parts, ":") from the Go standard library. -/
def joinParts : List String → String
  | [] => ""
  | [p] => p
  | p :: rest => p ++ ":" ++ joinParts rest

/-- Modelled from the spec: utils.Take, whose source is not in the repository
snapshot, truncates a list to its first n elements.  It is reached only when
level > 0, which no claim exercises. -/
def utilsTake {α : Type} (l : List α) (n : Nat) : List α := List.take n l

/-- Project.LevelSimpleName from the source.  Go len on strings counts bytes,
embedded as String.utf8ByteSize. -/
def Project.LevelSimpleName (p : Project) (level : Int) : String :=
  if p.NameParts = [] then p.Name
  else
    let parts := if level > 0 then utilsTake p.NameParts level.toNat else p.NameParts
    let parts := simplifyPrefixes parts
    let result := joinParts parts
    if p.Name.utf8ByteSize ≤ result.utf8ByteSize then p.Name else result

/-- Project.SimpleName from the source. -/
def Project.SimpleName (p : Project) : String := p.LevelSimpleName 0

/-- strings.TrimLeft(s, ":") from the Go standard library: drop every leading
colon. -/
def trimLeftColons (s : String) : String :=
  String.mk (s.toList.dropWhile (fun c => decide (c = ':')))

/-- Lexicographic comparison of character lists by code point.  Go compares
strings byte-wise; on valid UTF-8 the byte order coincides with the code-point
order, so this is the Go string less-than. -/
def strLtL : List Char → List Char → Bool
  | [], [] => false
  | [], _ :: _ => true
  | _ :: _, [] => false
  | a :: as, b :: bs =>
    if a.toNat < b.toNat then true
    else if b.toNat < a.toNat then false
    else strLtL as bs

/-- The Go string less-than. -/
def strLt (a b : String) : Bool := strLtL a.toList b.toList

/-- The comparator body shared by sortProjects and sortDependencies: a Code
node sorts before an ExternalDependency node regardless of name, otherwise
names compare lexicographically with leading colons stripped. -/
def projLess (pi pj : Project) : Bool :=
  if pi.IsCode && pj.IsExternalDependency then true
  else if pi.IsExternalDependency && pj.IsCode then false
  else strLt (trimLeftColons pi.Name) (trimLeftColons pj.Name)

/-- The non-strict version of projLess: position a may precede position b in a
sorted slice exactly when the comparator does not demand b before a. -/
def projLE (pi pj : Project) : Bool := !projLess pj pi

/-- Insertion of one element into a sorted list under a Bool comparator. -/
def insertSorted {α : Type} (le : α → α → Bool) (a : α) : List α → List α
  | [] => [a]
  | b :: l => if le a b then a :: b :: l else b :: insertSorted le a l

/-- Insertion sort under a Bool comparator; embeds sort.Slice, whose contract
is a sorted result whenever the comparator is a strict weak order. -/
def sortByLe {α : Type} (le : α → α → Bool) : List α → List α
  | [] => []
  | a :: l => insertSorted le a (sortByLe le l)

/-- sortProjects from the source. -/
def sortProjects (result : List Project) : List Project := sortByLe projLE result

/-- The registry: the single map from key (root + newline + name) to node. -/
structure Projects where
  all : List (String × Project)

/-- NewProjects from the source. -/
def NewProjects : Projects := { all := [] }

/-- Projects.GetOrNil from the source: panics (none) on an empty name,
otherwise reports the node stored under that exact key, if any. -/
def Projects.GetOrNil (ps : Projects) (name : String) : Option (Option Project) :=
  if name.length = 0 then none
  else some (mapLookup ps.all name)

/-- Projects.Get from the source: panics (none) on an empty root or name,
otherwise returns the node stored under root + newline + name, creating it
first when absent.  The returned String is the key of the returned node. -/
def Projects.Get (ps : Projects) (root name : String) : Option (Projects × String) :=
  if root.length = 0 then none
  else if name.length = 0 then none
  else
    let key := root ++ "\n" ++ name
    match mapLookup ps.all key with
    | some _ => some (ps, key)
    | none => some ({ all := ps.all ++ [(key, NewProject root name)] }, key)

/-- Lookup of a node by key. -/
def Projects.find (ps : Projects) (k : String) : Option Project := mapLookup ps.all k

/-- Dereference of an embedded node pointer; the default is never reached for
keys stored in the registry. -/
def Projects.getD (ps : Projects) (k : String) : Project :=
  (ps.find k).getD (NewProject "" "")

/-- In-place mutation of the node stored under a key. -/
def Projects.update (ps : Projects) (k : String) (f : Project → Project) : Projects :=
  { all := ps.all.map (fun kv => if kv.1 = k then (kv.1, f kv.2) else kv) }

/-- lp.proj.AddDependency(p) from parseDeps, at registry level: the source
node, named by its key, gains a fresh edge to the target node. -/
def Projects.addDep (ps : Projects) (src tgt : String) : Projects :=
  match ps.find tgt with
  | none => ps
  | some t => ps.update src (fun p => (p.AddDependency t).1)

/-- dep.SetConfig(k, v) on the edge object returned by AddDependency, at the
level of the owning source project: the stored edge for the given target name
is mutated in place. -/
def Project.setDepConfig (p : Project) (tname k v : String) : Project :=
  match mapLookup p.dependencies tname with
  | none => p
  | some e => { p with dependencies := mapInsert p.dependencies tname (e.SetConfig k v).1 }

/-- The node values held by the registry. -/
def Projects.values (ps : Projects) : List Project := ps.all.map (fun kv => kv.2)

/-- The keys held by the registry. -/
def Projects.keys (ps : Projects) : List String := ps.all.map (fun kv => kv.1)

/-- The edge values held by a project. -/
def Project.depValues (p : Project) : List Dependency :=
  p.dependencies.map (fun kv => kv.2)

/-- Projects.ListProjects from the source: collect every node, skipping
external-dependency nodes under FilterExcludeExternal, then sortProjects. -/
def Projects.ListProjects (ps : Projects) (filter : FilterType) : List Project :=
  sortProjects (ps.values.filter
    (fun v => !(filter = FilterType.FilterExcludeExternal && v.IsExternalDependency)))

/-- The comparator of sortDependencies: compare sources; when the source names
tie, compare targets instead; either comparison is the shared projLess body.
The pointers held by the edges are dereferenced through the registry. -/
def depLess (ps : Projects) (di dj : Dependency) : Bool :=
  let pi := ps.getD di.Source
  let pj := ps.getD dj.Source
  if pi.Name = pj.Name then projLess (ps.getD di.Target) (ps.getD dj.Target)
  else projLess pi pj

/-- The non-strict version of depLess. -/
def depLE (ps : Projects) (di dj : Dependency) : Bool := !depLess ps dj di

/-- sortDependencies from the source. -/
def sortDependencies (ps : Projects) (result : List Dependency) : List Dependency :=
  sortByLe (depLE ps) result

/-- Project.ListDependencies from the source, at registry level (the receiver
is named by its key): collect the project's edges, skipping edges whose target
is an external dependency under FilterExcludeExternal, then sortDependencies. -/
def Projects.ListDependencies (ps : Projects) (pk : String) (filter : FilterType) :
    List Dependency :=
  match ps.find pk with
  | none => []
  | some p =>
    sortDependencies ps (p.depValues.filter
      (fun v => !(filter = FilterType.FilterExcludeExternal
                    && (ps.getD v.Target).IsExternalDependency)))

/-- strings.Split(content, newline) from the Go standard library. -/
def splitNlAux : List Char → List Char → List String
  | [], cur => [String.mk cur.reverse]
  | c :: rest, cur =>
    if c = '\n' then String.mk cur.reverse :: splitNlAux rest []
    else splitNlAux rest (c :: cur)

/-- Split a string into its newline-separated lines, Go Split semantics. -/
def splitNl (s : String) : List String := splitNlAux s.toList []

/-- The character class of the tree-drawing runs in both gradle regexes. -/
def isTreeChar (c : Char) : Bool :=
  decide (c = '-' ∨ c = '+' ∨ c = '\\' ∨ c = '|' ∨ c = ' ')

/-- The character class of dependency identifiers in depRE. -/
def isIdentChar (c : Char) : Bool :=
  c.isAlpha || c.isDigit || decide (c = ':' ∨ c = '.' ∨ c = '_' ∨ c = '-')

/-- The quoted-name tail of the project regexes: a nonempty apostrophe-free
run, a closing apostrophe, end of line. -/
def matchQuoted (cs : List Char) : Option String :=
  let n := cs.takeWhile (fun c => decide (c ≠ quoteChar))
  if n.length = 0 then none
  else if cs.drop n.length = [quoteChar] then some (String.mk n) else none

/-- rootRE of parseProjects: a whole line of the form Root project
quote name quote. -/
def rootLineMatch (l : String) : Option String :=
  match dropLit ("Root project ".toList ++ [quoteChar]) l.toList with
  | some rest => matchQuoted rest
  | none => none

/-- projRE of parseProjects: a whole line made of a nonempty tree-drawing run,
the literal Project, and a quoted name.  The tree-drawing run is necessarily
maximal: a shorter run would have to be followed by the letter P, which is
itself a tree-drawing character position, so no backtracking can succeed. -/
def projLineMatch (l : String) : Option String :=
  let cs := l.toList
  let run := cs.takeWhile isTreeChar
  if run.length = 0 then none
  else
    match dropLit ("Project ".toList ++ [quoteChar]) (cs.drop run.length) with
    | some rest => matchQuoted rest
    | none => none

/-- One line of the parseProjects loop: while no root declaration has been
seen, a rootRE match is appended (first occurrence only); independently every
projRE match is appended; all other lines are skipped. -/
def parseProjectsLines : List String → Bool → List String
  | [], _ => []
  | l :: rest, rootAdded =>
    if rootAdded then
      (projLineMatch l).toList ++ parseProjectsLines rest true
    else
      match rootLineMatch l with
      | some n => n :: ((projLineMatch l).toList ++ parseProjectsLines rest true)
      | none => (projLineMatch l).toList ++ parseProjectsLines rest false

/-- parseProjects from the source (its Go error result is always nil). -/
def parseProjects (content : String) : List String :=
  parseProjectsLines (splitNl content) false

/-- rootProjRE of parseDeps: a whole line of the form Root project quote name
quote, or Project quote name quote.  The alternatives have disjoint first
characters, so the leftmost-first alternation is an if-else. -/
def rootProjMatch (l : String) : Option String :=
  match dropLit ("Root project ".toList ++ [quoteChar]) l.toList with
  | some rest => matchQuoted rest
  | none =>
    match dropLit ("Project ".toList ++ [quoteChar]) l.toList with
    | some rest => matchQuoted rest
    | none => none

/-- The greedy identifier step of depRE: a maximal nonempty run of identifier
characters. -/
def identTake (cs : List Char) : Option String :=
  let run := cs.takeWhile isIdentChar
  if run.length = 0 then none else some (String.mk run)

/-- The tail of depRE after the tree-drawing run: the greedy optional literal
followed by an identifier; when the literal is consumed but no identifier
follows, the matcher backtracks and reads the identifier directly. -/
def depTailMatch (cs : List Char) : Option String :=
  match dropLit "project ".toList cs with
  | some rest =>
    match identTake rest with
    | some id => some id
    | none => identTake cs
  | none => identTake cs

/-- The backtracking search of depRE over the tree-drawing run length: the run
is greedy, so lengths are tried from the maximal run downward, never below
one.  Go regexp has leftmost-first (backtracking) submatch semantics. -/
def depSearch (cs : List Char) : Nat → Option (Nat × String)
  | 0 => none
  | k + 1 =>
    match depTailMatch (cs.drop (k + 1)) with
    | some id => some (k + 1, id)
    | none => depSearch cs k

/-- depRE of parseDeps: on a match, the length of the tree-drawing run (the
depth) and the identifier submatch. -/
def depMatch (l : String) : Option (Nat × String) :=
  let cs := l.toList
  depSearch cs (cs.takeWhile isTreeChar).length

/-- parseState from the source. -/
inductive parseState where
  | waitingRoot
  | waitingDeps
  | parsingDeps
deriving DecidableEq, Repr

/-- pd from the source: a stack entry of node (by key) and depth.  The Go
slice grows at its end; the embedded list grows at its head, so utils.Last is
the head and utils.RemoveLast is the tail. -/
structure pdEntry where
  proj : String
  depth : Nat
deriving DecidableEq, Repr

/-- The depth-reconciliation loop of parseDeps: starting from utils.Last,
entries are popped while the new depth is at most the entry's depth; the
result is the stack ending at the parent.  none embeds the panic that Go's
utils.Last would raise on an emptied stack. -/
def popToParent (depth : Nat) : List pdEntry → Option (List pdEntry)
  | [] => none
  | top :: rest =>
    if depth ≤ top.depth then popToParent depth rest else some (top :: rest)

/-- The outcome of one parsingDeps-state line. -/
inductive DepStep where
  | brk
  | err (msg : String)
  | panicked
  | next (stack : List pdEntry) (ps : Projects)

/-- The parsingDeps-state block of parseDeps for one line: an empty line
breaks; a line not matched by depRE is an error carrying the line; otherwise
the named node is resolved, the stack is unwound to the parent, the parent
gains an edge to the node, and the node is pushed at its depth. -/
def depLineStep (rootProj l : String) (stack : List pdEntry) (ps : Projects) : DepStep :=
  if l.length = 0 then DepStep.brk
  else
    match depMatch l with
    | none => DepStep.err ("invalid dependency line: " ++ l)
    | some (depth, name) =>
      match ps.Get rootProj name with
      | none => DepStep.panicked
      | some (ps1, k) =>
        match popToParent depth stack with
        | none => DepStep.panicked
        | some [] => DepStep.panicked
        | some (top :: rest) =>
          DepStep.next ({ proj := k, depth := depth } :: top :: rest)
            (ps1.addDep top.proj k)

/-- The result of parseDeps: ok or an error, each carrying the registry as
mutated so far (Go mutates it in place), or an embedded panic. -/
inductive ParseResult where
  | ok (ps : Projects)
  | fail (msg : String) (ps : Projects)
  | panicked

/-- The line loop of parseDeps.  waitingRoot scans for rootProjRE, resolves
the root node and pushes it at depth 0; waitingDeps scans for the first line
beginning with a branch marker and falls through to the parsingDeps block on
that same line; parsingDeps processes every line through depLineStep. -/
def parseDepsLoop (rootProj : String) :
    List String → parseState → List pdEntry → Projects → ParseResult
  | [], _, _, ps => ParseResult.ok ps
  | l :: rest, st, stack, ps =>
    match st with
    | parseState.waitingRoot =>
      match rootProjMatch l with
      | some n =>
        match ps.Get rootProj n with
        | none => ParseResult.panicked
        | some (ps1, k) =>
          parseDepsLoop rootProj rest parseState.waitingDeps
            ({ proj := k, depth := 0 } :: stack) ps1
      | none => parseDepsLoop rootProj rest parseState.waitingRoot stack ps
    | parseState.waitingDeps =>
      if hasPrefixStr "\\---" l || hasPrefixStr "+---" l then
        match depLineStep rootProj l stack ps with
        | DepStep.brk => ParseResult.ok ps
        | DepStep.err m => ParseResult.fail m ps
        | DepStep.panicked => ParseResult.panicked
        | DepStep.next stack1 ps1 =>
          parseDepsLoop rootProj rest parseState.parsingDeps stack1 ps1
      else parseDepsLoop rootProj rest parseState.waitingDeps stack ps
    | parseState.parsingDeps =>
      match depLineStep rootProj l stack ps with
      | DepStep.brk => ParseResult.ok ps
      | DepStep.err m => ParseResult.fail m ps
      | DepStep.panicked => ParseResult.panicked
      | DepStep.next stack1 ps1 =>
        parseDepsLoop rootProj rest parseState.parsingDeps stack1 ps1

/-- parseDeps from the source. -/
def parseDeps (projects : Projects) (content rootProj : String) : ParseResult :=
  parseDepsLoop rootProj (splitNl content) parseState.waitingRoot [] projects

/-- The message of a failed parse, when the parse failed. -/
def resultMsg : ParseResult → Option String
  | ParseResult.fail m _ => some m
  | _ => none

/-- The registry carried by a non-panicking parse result. -/
def resultPs : ParseResult → Option Projects
  | ParseResult.ok ps => some ps
  | ParseResult.fail _ ps => some ps
  | ParseResult.panicked => none

/-- The target names of the edges stored on the node at a key, in map order. -/
def depKeysOf (ps : Projects) (k : String) : List String :=
  ((ps.find k).map (fun p => p.dependencies.map (fun kv => kv.1))).getD []

/-- The total number of edges held across the registry. -/
def Projects.edgeCount (ps : Projects) : Nat :=
  (ps.all.map (fun kv => kv.2.dependencies.length)).sum

/-- Sortedness of a list under a Bool comparator, as a proposition. -/
def sortedBy {α : Type} (le : α → α → Bool) (l : List α) : Prop :=
  List.Pairwise (fun a b => le a b = true) l

/-- Executable sortedness check. -/
def sortedByB {α : Type} (le : α → α → Bool) : List α → Bool
  | [] => true
  | a :: l => l.all (le a) && sortedByB le l

/-- GoodPT marks the project types on which the sort comparator is a strict
weak order; DatabaseType breaks it. -/
def GoodPT (p : Project) : Prop :=
  p.Typ = ProjectType.CodeType ∨ p.Typ = ProjectType.ExternalDependencyType

instance (p : Project) : Decidable (GoodPT p) := by unfold GoodPT; infer_instance

/-- The sort precedence of a type: Code first. -/
def rankOf (p : Project) : Nat := if p.Typ = ProjectType.CodeType then 0 else 1

/-- The colon-stripped name, as characters. -/
def trimmedName (p : Project) : List Char := (trimLeftColons p.Name).toList

/-- A Code-typed node named zzz, from the sorting scenario. -/
def sortCodeZzz : Project := { NewProject "r" "zzz" with Typ := ProjectType.CodeType }

/-- An ExternalDependency-typed node named aaa, from the sorting scenario. -/
def sortExtAaa : Project := NewProject "r" "aaa"

/-- A Code-typed node named colon-bar, from the sorting scenario. -/
def sortCodeBar : Project := { NewProject "r" ":bar" with Typ := ProjectType.CodeType }

/-- A Code-typed node named foo, from the sorting scenario. -/
def sortCodeFoo : Project := { NewProject "r" "foo" with Typ := ProjectType.CodeType }

/-- A Code-typed node named z. -/
def cxCodeZ : Project := { NewProject "r" "z" with Typ := ProjectType.CodeType }

/-- An ExternalDependency-typed node named a. -/
def cxExtA : Project := NewProject "r" "a"

/-- A Database-typed node named b. -/
def cxDbB : Project := { NewProject "r" "b" with Typ := ProjectType.DatabaseType }

/-- A registry holding one node of each type.  On this trio the comparator is
cyclic: Code z before Ext a (type rule), Ext a before Db b (name rule), and
Db b before Code z (name rule). -/
def cxMixed : Projects :=
  { all := [("r\nz", cxCodeZ), ("r\na", cxExtA), ("r\nb", cxDbB)] }

/-- All six orderings of the cyclic trio. -/
def cxOrderings : List (List Project) :=
  [[cxCodeZ, cxExtA, cxDbB], [cxCodeZ, cxDbB, cxExtA], [cxExtA, cxCodeZ, cxDbB],
   [cxExtA, cxDbB, cxCodeZ], [cxDbB, cxCodeZ, cxExtA], [cxDbB, cxExtA, cxCodeZ]]

/-- A Code-typed target node x. -/
def wTgtX : Project := { NewProject "r" "x" with Typ := ProjectType.CodeType }

/-- An ExternalDependency-typed target node y. -/
def wTgtY : Project := NewProject "r" "y"

/-- A Code-typed source node s. -/
def wSrcS : Project := { NewProject "r" "s" with Typ := ProjectType.CodeType }

/-- The source node after adding its two edges. -/
def wSrcWithDeps : Project := ((wSrcS.AddDependency wTgtY).1.AddDependency wTgtX).1

/-- A registry of Code and ExternalDependency nodes only, with two edges. -/
def wReg : Projects :=
  { all := [("r\ns", wSrcWithDeps), ("r\nx", wTgtX), ("r\ny", wTgtY)] }

/-- The prefix-collapse scenario project: hierarchical parts with a repeated
leading token. -/
def pFaire : Project :=
  { NewProject "r" "faire:faire-sub:faire-sub-x" with
      NameParts := ["faire", "faire-sub", "faire-sub-x"] }

/-- A project without recorded name parts. -/
def pPlain : Project := NewProject "r" "plain"

/-- Registries reachable by populating an empty registry through Get alone. -/
inductive Built : Projects → Prop where
  | nil : Built NewProjects
  | step {ps : Projects} {root name : String} {ps1 : Projects} {k : String} :
      Built ps → Projects.Get ps root name = some (ps1, k) → Built ps1

/-- The registry after Get of (a, b) on an empty registry. -/
def psNl1 : Projects := { all := [("a\nb", NewProject "a" "b")] }

/-- The registry after a further Get of (r, a-newline-b): the second node's
bare name collides with the first node's key. -/
def psNl2 : Projects :=
  { all := [("a\nb", NewProject "a" "b"), ("r\na\nb", NewProject "r" "a\nb")] }

/-- A one-node registry built through Get. -/
def psW10 : Projects := { all := [("r\na", NewProject "r" "a")] }

/-- The tree-parser scenario report: root :app, two depth-5 dependency lines,
then a blank line. -/
def c2content1 : String :=
  "Root project ':app'\n+--- project :core\n\\--- com.x:lib:1.0\n\n"

/-- The depth-unwind scenario report: the third line is indented deeper under
:core. -/
def c2content2 : String :=
  "Root project ':app'\n+--- project :core\n|    \\--- com.x:lib:1.0\n\n"

/-- The malformed-line scenario report: the third line holds only tree-drawing
characters with no identifier. -/
def c3content : String := "Root project ':app'\n+--- project :core\n| |\n"

/-- The registry holding only the scenario root node. -/
def psApp : Projects := { all := [("root\n:app", NewProject "root" ":app")] }

/-- The registry after the scenario root and :core were created. -/
def psApp2 : Projects :=
  { all := psApp.all ++ [("root\n:core", NewProject "root" ":core")] }

theorem sortedByB_iff {α : Type} (le : α → α → Bool) (l : List α) :
    sortedByB le l = true ↔ sortedBy le l := by
  induction l with
  | nil => simp [sortedByB, sortedBy]
  | cons a l ih =>
    unfold sortedByB
    rw [Bool.and_eq_true, List.all_eq_true, sortedBy, List.pairwise_cons, ih]
    exact Iff.rfl

theorem mem_insertSorted {α : Type} (le : α → α → Bool) (a x : α) (l : List α) :
    x ∈ insertSorted le a l ↔ x = a ∨ x ∈ l := by
  induction l with
  | nil => simp [insertSorted]
  | cons b l ih =>
    simp only [insertSorted]
    split
    · simp
    · simp [ih]; tauto

theorem mem_sortByLe {α : Type} (le : α → α → Bool) (x : α) (l : List α) :
    x ∈ sortByLe le l ↔ x ∈ l := by
  induction l with
  | nil => simp [sortByLe]
  | cons a l ih => simp [sortByLe, mem_insertSorted, ih]

theorem insertSorted_sorted {α : Type} (le : α → α → Bool) (G : α → Prop)
    (htot : ∀ a b, G a → G b → le a b = true ∨ le b a = true)
    (htrans : ∀ a b c, G a → G b → G c → le a b = true → le b c = true → le a c = true)
    (a : α) (ha : G a) (l : List α) (hl : ∀ x ∈ l, G x)
    (hs : sortedBy le l) : sortedBy le (insertSorted le a l) := by
  induction l with
  | nil => simp [insertSorted, sortedBy]
  | cons b l ih =>
    simp only [insertSorted]
    rcases List.pairwise_cons.mp hs with ⟨hb, hl'⟩
    have hGb : G b := hl b (List.mem_cons_self b l)
    by_cases hab : le a b = true
    · rw [if_pos hab]
      refine List.pairwise_cons.mpr ⟨?_, hs⟩
      intro x hx
      rcases List.mem_cons.mp hx with rfl | hx'
      · exact hab
      · exact htrans a b x ha hGb (hl x (List.mem_cons_of_mem b hx')) hab (hb x hx')
    · rw [if_neg hab]
      have hba : le b a = true := by
        rcases htot a b ha hGb with h | h
        · exact absurd h hab
        · exact h
      refine List.pairwise_cons.mpr ⟨?_, ?_⟩
      · intro x hx
        rcases (mem_insertSorted le a x l).mp hx with rfl | hx'
        · exact hba
        · exact hb x hx'
      · exact ih (fun x hx => hl x (List.mem_cons_of_mem b hx)) hl'

theorem sortByLe_sorted {α : Type} (le : α → α → Bool) (G : α → Prop)
    (htot : ∀ a b, G a → G b → le a b = true ∨ le b a = true)
    (htrans : ∀ a b c, G a → G b → G c → le a b = true → le b c = true → le a c = true)
    (l : List α) (hl : ∀ x ∈ l, G x) : sortedBy le (sortByLe le l) := by
  induction l with
  | nil => simp [sortByLe, sortedBy]
  | cons a l ih =>
    simp only [sortByLe]
    exact insertSorted_sorted le G htot htrans a (hl a (List.mem_cons_self a l))
      (sortByLe le l)
      (fun x hx => hl x (List.mem_cons_of_mem a ((mem_sortByLe le x l).mp hx)))
      (ih (fun x hx => hl x (List.mem_cons_of_mem a hx)))

theorem charToNat_inj {a b : Char} (h : a.toNat = b.toNat) : a = b :=
  Char.eq_of_val_eq (UInt32.ext h)

theorem strLtL_cons (a b : Char) (as bs : List Char) :
    strLtL (a :: as) (b :: bs) =
      if a.toNat < b.toNat then true
      else if b.toNat < a.toNat then false
      else strLtL as bs := rfl

theorem strLtL_irrefl (l : List Char) : strLtL l l = false := by
  induction l with
  | nil => rfl
  | cons x xs ih => simp [strLtL_cons, ih]

theorem strLtL_trans {a b c : List Char} (hab : strLtL a b = true)
    (hbc : strLtL b c = true) : strLtL a c = true := by
  induction a generalizing b c with
  | nil =>
    cases b with
    | nil => simp [strLtL] at hab
    | cons b bs =>
      cases c with
      | nil => simp [strLtL] at hbc
      | cons c cs => simp [strLtL]
  | cons a as ih =>
    cases b with
    | nil => simp [strLtL] at hab
    | cons b bs =>
      cases c with
      | nil => simp [strLtL] at hbc
      | cons c cs =>
        rw [strLtL_cons] at hab hbc ⊢
        rcases Nat.lt_trichotomy a.toNat b.toNat with h1 | h1 | h1
        · rcases Nat.lt_trichotomy b.toNat c.toNat with h2 | h2 | h2
          · rw [if_pos (by omega)]
          · rw [if_pos (by omega)]
          · rw [if_neg (by omega), if_pos h2] at hbc
            exact absurd hbc (by simp)
        · rw [if_neg (by omega), if_neg (by omega)] at hab
          rcases Nat.lt_trichotomy b.toNat c.toNat with h2 | h2 | h2
          · rw [if_pos (by omega)]
          · rw [if_neg (by omega), if_neg (by omega)] at hbc
            rw [if_neg (by omega), if_neg (by omega)]
            exact ih hab hbc
          · rw [if_neg (by omega), if_pos h2] at hbc
            exact absurd hbc (by simp)
        · rw [if_neg (by omega), if_pos h1] at hab
          exact absurd hab (by simp)

theorem strLtL_conn {a b : List Char} (hab : strLtL a b = false)
    (hba : strLtL b a = false) : a = b := by
  induction a generalizing b with
  | nil =>
    cases b with
    | nil => rfl
    | cons b bs => simp [strLtL] at hab
  | cons a as ih =>
    cases b with
    | nil => simp [strLtL] at hba
    | cons b bs =>
      rw [strLtL_cons] at hab
      rw [strLtL_cons] at hba
      rcases Nat.lt_trichotomy a.toNat b.toNat with h1 | h1 | h1
      · rw [if_pos h1] at hab
        exact absurd hab (by simp)
      · rw [if_neg (by omega), if_neg (by omega)] at hab
        rw [if_neg (by omega), if_neg (by omega)] at hba
        rw [charToNat_inj h1, ih hab hba]
      · rw [if_pos h1] at hba
        exact absurd hba (by simp)

theorem strLtL_asymm {a b : List Char} (hab : strLtL a b = true) :
    strLtL b a = false := by
  cases h : strLtL b a with
  | false => rfl
  | true =>
    have := strLtL_trans hab h
    rw [strLtL_irrefl] at this
    exact absurd this (by simp)

/-- On Good projects the comparator is exactly the lexicographic comparison of
(type rank, colon-stripped name). -/
theorem projLess_good {a b : Project} (ha : GoodPT a) (hb : GoodPT b) :
    projLess a b = true ↔
      (rankOf a < rankOf b ∨
        (rankOf a = rankOf b ∧ strLtL (trimmedName a) (trimmedName b) = true)) := by
  rcases ha with h1 | h1 <;> rcases hb with h2 | h2 <;>
    simp [projLess, Project.IsCode, Project.IsExternalDependency, rankOf,
      trimmedName, strLt, h1, h2]

theorem projLess_good_false {a b : Project} (ha : GoodPT a) (hb : GoodPT b)
    (h : projLess a b = false) :
    rankOf b ≤ rankOf a ∧
      (rankOf a = rankOf b → strLtL (trimmedName a) (trimmedName b) = false) := by
  have h2 : ¬ (rankOf a < rankOf b ∨
      (rankOf a = rankOf b ∧ strLtL (trimmedName a) (trimmedName b) = true)) := by
    rw [← projLess_good ha hb, h]; simp
  push_neg at h2
  refine ⟨by omega, fun he => ?_⟩
  have := h2.2 he
  cases hx : strLtL (trimmedName a) (trimmedName b) with
  | false => rfl
  | true => exact absurd hx this

theorem projLE_total {a b : Project} (ha : GoodPT a) (hb : GoodPT b) :
    projLE a b = true ∨ projLE b a = true := by
  unfold projLE
  simp only [Bool.not_eq_true']
  cases h : projLess b a with
  | false => exact Or.inl rfl
  | true =>
    cases h2 : projLess a b with
    | false => exact Or.inr rfl
    | true =>
      exfalso
      rw [projLess_good hb ha] at h
      rw [projLess_good ha hb] at h2
      rcases h with h | ⟨he, hl⟩ <;> rcases h2 with h2 | ⟨he2, hl2⟩
      · omega
      · omega
      · omega
      · rw [strLtL_asymm hl2] at hl
        exact absurd hl (by simp)

theorem projLE_trans {a b c : Project} (ha : GoodPT a) (hb : GoodPT b)
    (hc : GoodPT c) (hab : projLE a b = true) (hbc : projLE b c = true) :
    projLE a c = true := by
  unfold projLE at *
  simp only [Bool.not_eq_true'] at hab hbc ⊢
  by_contra hca
  simp only [Bool.not_eq_false] at hca
  rw [projLess_good hc ha] at hca
  have hba := projLess_good_false hb ha hab
  have hcb := projLess_good_false hc hb hbc
  rcases hca with h | ⟨he, hl⟩
  · omega
  · have hba' : strLtL (trimmedName b) (trimmedName a) = false := hba.2 (by omega)
    have hcb' : strLtL (trimmedName c) (trimmedName b) = false := hcb.2 (by omega)
    cases hbc2 : strLtL (trimmedName b) (trimmedName c) with
    | true =>
      have h3 := strLtL_trans hbc2 hl
      rw [hba'] at h3
      exact absurd h3 (by simp)
    | false =>
      have h4 : trimmedName c = trimmedName b := strLtL_conn hcb' hbc2
      rw [h4] at hl
      rw [hba'] at hl
      exact absurd hl (by simp)

theorem depLE_of_src_names {ps : Projects} {di dj : Dependency} {nm : String}
    (hi : (ps.getD di.Source).Name = nm) (hj : (ps.getD dj.Source).Name = nm) :
    depLE ps di dj = projLE (ps.getD di.Target) (ps.getD dj.Target) := by
  simp only [depLE, depLess, projLE]
  rw [hi, hj, if_pos rfl]

theorem listProjects_sorted (ps : Projects) (f : FilterType)
    (h : ∀ p ∈ ps.values, GoodPT p) : sortedBy projLE (ps.ListProjects f) := by
  unfold Projects.ListProjects sortProjects
  exact sortByLe_sorted projLE GoodPT
    (fun a b ha hb => projLE_total ha hb)
    (fun a b c ha hb hc hab hbc => projLE_trans ha hb hc hab hbc)
    _ (fun x hx => h x (List.mem_filter.mp hx).1)

theorem listDependencies_sorted (ps : Projects) (k : String) (f : FilterType)
    (h : ∀ d ∈ (ps.getD k).depValues, d.Source = k ∧ GoodPT (ps.getD d.Target)) :
    sortedBy (depLE ps) (ps.ListDependencies k f) := by
  unfold Projects.ListDependencies
  cases hf : ps.find k with
  | none => simp [sortedBy]
  | some p =>
    have hgd : ps.getD k = p := by unfold Projects.getD; rw [hf]; rfl
    simp only
    unfold sortDependencies
    refine sortByLe_sorted (depLE ps)
      (fun d => (ps.getD d.Source).Name = (ps.getD k).Name ∧ GoodPT (ps.getD d.Target))
      ?_ ?_ _ ?_
    · intro a b ha hb
      rw [depLE_of_src_names ha.1 hb.1, depLE_of_src_names hb.1 ha.1]
      exact projLE_total ha.2 hb.2
    · intro a b c ha hb hc hab hbc
      rw [depLE_of_src_names ha.1 hb.1] at hab
      rw [depLE_of_src_names hb.1 hc.1] at hbc
      rw [depLE_of_src_names ha.1 hc.1]
      exact projLE_trans ha.2 hb.2 hc.2 hab hbc
    · intro d hd
      have hd' : d ∈ (ps.getD k).depValues := by
        rw [hgd]
        exact (List.mem_filter.mp hd).1
      rcases h d hd' with ⟨hsrc, hgood⟩
      exact ⟨by rw [hsrc], hgood⟩

/-- Claim C4 (amended): listings are returned sorted under the comparator rule
(Code before ExternalDependency regardless of name, otherwise colon-stripped
names ascending; edges compare by source, falling back to target on a source
name tie) whenever the compared entities are Code- or ExternalDependency-typed
(for edges: the edges belong to their source node and their targets are Code
or ExternalDependency); the sorting scenarios hold: Code zzz precedes
ExternalDependency aaa, and Code colon-bar precedes Code foo. -/
theorem c4_listing_sorted :
    (∀ (ps : Projects) (f : FilterType),
      (∀ p ∈ ps.values, GoodPT p) → sortedBy projLE (ps.ListProjects f)) ∧
    (∀ (ps : Projects) (k : String) (f : FilterType),
      (∀ d ∈ (ps.getD k).depValues, d.Source = k ∧ GoodPT (ps.getD d.Target)) →
      sortedBy (depLE ps) (ps.ListDependencies k f)) ∧
    projLess sortCodeZzz sortExtAaa = true ∧
    projLess sortCodeBar sortCodeFoo = true := by
  refine ⟨listProjects_sorted, listDependencies_sorted, ?_, ?_⟩ <;> decide

/-- Witness for C4: on a concrete registry of Code and ExternalDependency
nodes, both listings come out sorted. -/
theorem c4_listing_sorted_witness :
    sortedBy projLE (wReg.ListProjects FilterType.FilterAll) ∧
    sortedBy (depLE wReg) (wReg.ListDependencies "r\ns" FilterType.FilterAll) :=
  ⟨c4_listing_sorted.1 wReg FilterType.FilterAll (by decide),
   c4_listing_sorted.2.1 wReg "r\ns" FilterType.FilterAll (by decide)⟩

/-- Counterexample to C4 as stated: with a Database-typed node present the
comparator is cyclic, the concrete listing of the trio is not sorted under the
rule (the executable sortedness check is false, and it is equivalent to the
sortedness proposition), and no ordering of the trio passes the check. -/
theorem c4_counterexample :
    sortedByB projLE (cxMixed.ListProjects FilterType.FilterAll) = false ∧
    (sortedByB projLE (cxMixed.ListProjects FilterType.FilterAll) = true
      ↔ sortedBy projLE (cxMixed.ListProjects FilterType.FilterAll)) ∧
    (cxOrderings.all (fun l => !(sortedByB projLE l))) = true ∧
    (cxMixed.ListProjects FilterType.FilterAll).map Project.Name = ["z", "a", "b"] := by
  exact ⟨by decide, sortedByB_iff _ _, by decide, by decide⟩

theorem mapLookup_insert_self {α : Type} (m : List (String × α)) (k : String) (v : α) :
    mapLookup (mapInsert m k v) k = some v := by
  induction m with
  | nil => simp [mapInsert, mapLookup]
  | cons kv rest ih =>
    by_cases h : kv.1 = k
    · simp [mapInsert, mapLookup, h]
    · simp [mapInsert, mapLookup, h, ih]

theorem mapLookup_erase_self {α : Type} (m : List (String × α)) (k : String) :
    mapLookup (mapErase m k) k = none := by
  induction m with
  | nil => simp [mapErase, mapLookup]
  | cons kv rest ih =>
    by_cases h : kv.1 = k
    · simp [mapErase, h, ih]
    · simp [mapErase, mapLookup, h, ih]

theorem mapInsert_length_of_mem {α : Type} (m : List (String × α)) (k : String) (v : α)
    (h : mapLookup m k ≠ none) : (mapInsert m k v).length = m.length := by
  induction m with
  | nil => simp [mapLookup] at h
  | cons kv rest ih =>
    by_cases hk : kv.1 = k
    · simp [mapInsert, hk]
    · simp only [mapLookup, if_neg hk] at h
      simp [mapInsert, hk, ih h]

theorem mapInsert_length_of_absent {α : Type} (m : List (String × α)) (k : String) (v : α)
    (h : mapLookup m k = none) : (mapInsert m k v).length = m.length + 1 := by
  induction m with
  | nil => simp [mapInsert]
  | cons kv rest ih =>
    by_cases hk : kv.1 = k
    · simp [mapLookup, hk] at h
    · simp only [mapLookup, if_neg hk] at h
      simp [mapInsert, hk, ih h]

/-- A Size equality from fieldwise equalities. -/
theorem size_ext {a b : Size} (h1 : a.Lines = b.Lines) (h2 : a.Files = b.Files)
    (h3 : a.Bytes = b.Bytes) (h4 : ∀ k, a.Other k = b.Other k) : a = b := by
  cases a
  cases b
  simp only at h1 h2 h3 h4
  simp [h1, h2, h3, funext h4]

/-- Claim C7: Size merging adds field by field, summing the Other map
pointwise; it is commutative and associative, and the zero Size is neutral on
both sides. -/
theorem c7_size_add_merge (a b c : Size) :
    ((a.Add b).Lines = a.Lines + b.Lines ∧ (a.Add b).Files = a.Files + b.Files ∧
      (a.Add b).Bytes = a.Bytes + b.Bytes ∧
      ∀ k, (a.Add b).Other k = a.Other k + b.Other k) ∧
    a.Add b = b.Add a ∧
    (a.Add b).Add c = a.Add (b.Add c) ∧
    a.Add emptySize = a ∧ emptySize.Add a = a := by
  refine ⟨⟨rfl, rfl, rfl, fun k => rfl⟩, ?_, ?_, ?_, ?_⟩
  · exact size_ext (Int.add_comm _ _) (Int.add_comm _ _) (Int.add_comm _ _)
      (fun k => Int.add_comm _ _)
  · exact size_ext (Int.add_assoc _ _ _) (Int.add_assoc _ _ _) (Int.add_assoc _ _ _)
      (fun k => Int.add_assoc _ _ _)
  · exact size_ext (Int.add_zero _) (Int.add_zero _) (Int.add_zero _)
      (fun k => Int.add_zero _)
  · exact size_ext (Int.zero_add _) (Int.zero_add _) (Int.zero_add _)
      (fun k => Int.zero_add _)

/-- Claim C9: for both configuration stores, SetConfig is a no-op reporting
false when the value is unchanged, deletes on the empty string, stores
otherwise; GetConfig returns the stored value or the empty string, and setting
empty then reading gives the empty string. -/
theorem c9_config_contract (p : Project) (d : Dependency) (k v : String) :
    (p.GetConfig k = v → p.SetConfig k v = (p, false)) ∧
    (p.GetConfig k ≠ v → v = "" →
      p.SetConfig k v = ({ p with config := mapErase p.config k }, true)) ∧
    (p.GetConfig k ≠ v → v ≠ "" →
      p.SetConfig k v = ({ p with config := mapInsert p.config k v }, true) ∧
      ((p.SetConfig k v).1).GetConfig k = v) ∧
    (mapLookup p.config k = none → p.GetConfig k = "") ∧
    ((p.SetConfig k "").1.GetConfig k = "") ∧
    (d.GetConfig k = v → d.SetConfig k v = (d, false)) ∧
    (d.GetConfig k ≠ v → v = "" →
      d.SetConfig k v = ({ d with config := mapErase d.config k }, true)) ∧
    (d.GetConfig k ≠ v → v ≠ "" →
      d.SetConfig k v = ({ d with config := mapInsert d.config k v }, true) ∧
      ((d.SetConfig k v).1).GetConfig k = v) ∧
    (mapLookup d.config k = none → d.GetConfig k = "") ∧
    ((d.SetConfig k "").1.GetConfig k = "") := by
  refine ⟨?_, ?_, ?_, ?_, ?_, ?_, ?_, ?_, ?_, ?_⟩
  · intro h; simp [Project.SetConfig, h]
  · intro h hv
    subst hv
    simp only [Project.GetConfig] at h
    simp [Project.SetConfig, Project.GetConfig, h]
  · intro h hv
    simp only [Project.GetConfig] at h
    constructor
    · simp [Project.SetConfig, Project.GetConfig, h, hv]
    · simp [Project.SetConfig, Project.GetConfig, h, hv, mapLookup_insert_self]
  · intro h; simp [Project.GetConfig, h]
  · by_cases h : p.GetConfig k = ""
    · simp [Project.SetConfig, h]
    · simp only [Project.GetConfig] at h
      simp [Project.SetConfig, Project.GetConfig, h, mapLookup_erase_self]
  · intro h; simp [Dependency.SetConfig, h]
  · intro h hv
    subst hv
    simp only [Dependency.GetConfig] at h
    simp [Dependency.SetConfig, Dependency.GetConfig, h]
  · intro h hv
    simp only [Dependency.GetConfig] at h
    constructor
    · simp [Dependency.SetConfig, Dependency.GetConfig, h, hv]
    · simp [Dependency.SetConfig, Dependency.GetConfig, h, hv, mapLookup_insert_self]
  · intro h; simp [Dependency.GetConfig, h]
  · by_cases h : d.GetConfig k = ""
    · simp [Dependency.SetConfig, h]
    · simp only [Dependency.GetConfig] at h
      simp [Dependency.SetConfig, Dependency.GetConfig, h, mapLookup_erase_self]

/-- Witness for C9 at concrete stores: storing then deleting a key reads back
as the empty string, and an absent key reads as the empty string. -/
theorem c9_config_contract_witness :
    (((NewProject "r" "n").SetConfig "a" "x").1.GetConfig "a" = "x") ∧
    (((NewProject "r" "n").SetConfig "a" "").1.GetConfig "a" = "") ∧
    ((NewProject "r" "n").GetConfig "a" = "") :=
  ⟨((c9_config_contract (NewProject "r" "n")
      { Source := "s", Target := "t", config := [] } "a" "x").2.2.1
      (by decide) (by decide)).2,
   (c9_config_contract (NewProject "r" "n")
      { Source := "s", Target := "t", config := [] } "a" "x").2.2.2.2.1,
   (c9_config_contract (NewProject "r" "n")
      { Source := "s", Target := "t", config := [] } "a" "x").2.2.2.1 rfl⟩

/-- Claim C5: SimpleName returns Name when no parts are recorded; any level at
most 0 behaves like level 0; the collapse loop drops the first part while the
second begins with it; for nonempty parts the result is the collapsed join
unless that join fails to be strictly shorter than Name, in which case Name is
returned; hence the result never exceeds the length of Name. -/
theorem c5_simple_name (p : Project) :
    (p.NameParts = [] → p.SimpleName = p.Name) ∧
    (∀ level : Int, level ≤ 0 → p.LevelSimpleName level = p.SimpleName) ∧
    (∀ (a b : String) (rest : List String),
      simplifyPrefixes (a :: b :: rest) =
        if hasPrefixStr a b then simplifyPrefixes (b :: rest) else a :: b :: rest) ∧
    (p.NameParts ≠ [] →
      p.SimpleName =
        if p.Name.utf8ByteSize ≤ (joinParts (simplifyPrefixes p.NameParts)).utf8ByteSize
        then p.Name else joinParts (simplifyPrefixes p.NameParts)) ∧
    (p.SimpleName).utf8ByteSize ≤ p.Name.utf8ByteSize := by
  have hmain : p.NameParts ≠ [] →
      p.SimpleName =
        if p.Name.utf8ByteSize ≤ (joinParts (simplifyPrefixes p.NameParts)).utf8ByteSize
        then p.Name else joinParts (simplifyPrefixes p.NameParts) := by
    intro h
    simp only [Project.SimpleName, Project.LevelSimpleName, if_neg h]
    norm_num
  refine ⟨?_, ?_, ?_, hmain, ?_⟩
  · intro h
    simp [Project.SimpleName, Project.LevelSimpleName, h]
  · intro level hlev
    by_cases h : p.NameParts = []
    · simp [Project.SimpleName, Project.LevelSimpleName, h]
    · simp only [Project.SimpleName, Project.LevelSimpleName, if_neg h]
      rw [if_neg (by omega : ¬ level > 0), if_neg (by omega : ¬ (0 : Int) > 0)]
  · intro a b rest
    simp only [simplifyPrefixes]
  · by_cases h : p.NameParts = []
    · simp [Project.SimpleName, Project.LevelSimpleName, h]
    · rw [hmain h]
      split
      · exact Nat.le_refl _
      · omega

/-- Witness for C5: the collapse scenario (repeated leading token) and the
empty-parts case, instantiated concretely. -/
theorem c5_simple_name_witness :
    pFaire.SimpleName =
      (if pFaire.Name.utf8ByteSize ≤
          (joinParts (simplifyPrefixes pFaire.NameParts)).utf8ByteSize
       then pFaire.Name else joinParts (simplifyPrefixes pFaire.NameParts)) ∧
    pFaire.SimpleName = "faire-sub-x" ∧
    pPlain.SimpleName = pPlain.Name ∧
    (pPlain.LevelSimpleName (-1) = pPlain.SimpleName) :=
  ⟨(c5_simple_name pFaire).2.2.2.1 (by decide), by decide,
   (c5_simple_name pPlain).1 rfl,
   (c5_simple_name pPlain).2.1 (-1) (by decide)⟩

theorem setDepConfig_fields (p : Project) (t k v : String) :
    (p.setDepConfig t k v).Root = p.Root ∧ (p.setDepConfig t k v).Name = p.Name := by
  unfold Project.setDepConfig
  cases mapLookup p.dependencies t with
  | none => exact ⟨rfl, rfl⟩
  | some e => exact ⟨rfl, rfl⟩

theorem setDepConfig_key (p : Project) (t k v : String) :
    (p.setDepConfig t k v).key = p.key := by
  rcases setDepConfig_fields p t k v with ⟨h1, h2⟩
  unfold Project.key
  rw [h1, h2]

/-- Claim C6: AddDependency stores the fresh edge under the target's bare
name; re-adding for the same target replaces the stored edge (same map size),
even after its configuration was changed, and the replacing edge has an empty
configuration; a first-time target grows the map by one. -/
theorem c6_adddep_replaces (p d : Project) (k v : String) :
    mapLookup ((p.AddDependency d).1).dependencies d.Name
        = some { Source := p.key, Target := d.key, config := [] } ∧
    (mapLookup p.dependencies d.Name ≠ none →
      ((p.AddDependency d).1).dependencies.length = p.dependencies.length) ∧
    (mapLookup p.dependencies d.Name = none →
      ((p.AddDependency d).1).dependencies.length = p.dependencies.length + 1) ∧
    mapLookup ((((p.AddDependency d).1.setDepConfig d.Name k v).AddDependency d).1).dependencies
        d.Name = some { Source := p.key, Target := d.key, config := [] } ∧
    ((((p.AddDependency d).1.setDepConfig d.Name k v).AddDependency d).1).dependencies.length
        = ((p.AddDependency d).1).dependencies.length := by
  have hadd : ∀ q : Project, ((q.AddDependency d).1).dependencies
      = mapInsert q.dependencies d.Name { Source := q.key, Target := d.key, config := [] } :=
    fun q => rfl
  have h1 : mapLookup ((p.AddDependency d).1).dependencies d.Name
      = some { Source := p.key, Target := d.key, config := [] } := by
    rw [hadd]
    exact mapLookup_insert_self _ _ _
  set p1 := (p.AddDependency d).1 with hp1
  set p2 := p1.setDepConfig d.Name k v with hp2
  have hp2deps : p2.dependencies
      = mapInsert p1.dependencies d.Name
          (({ Source := p.key, Target := d.key, config := [] } : Dependency).SetConfig k v).1 := by
    rw [hp2]
    unfold Project.setDepConfig
    rw [h1]
  have h2look : mapLookup p2.dependencies d.Name ≠ none := by
    rw [hp2deps, mapLookup_insert_self]
    simp
  refine ⟨h1, ?_, ?_, ?_, ?_⟩
  · intro h
    rw [hadd]
    exact mapInsert_length_of_mem _ _ _ h
  · intro h
    rw [hadd]
    exact mapInsert_length_of_absent _ _ _ h
  · rw [hadd p2, setDepConfig_key, mapLookup_insert_self]
    rfl
  · rw [hadd p2]
    rw [mapInsert_length_of_mem _ _ _ h2look, hp2deps]
    exact mapInsert_length_of_mem _ _ _ (by rw [h1]; simp)

/-- Witness for C6: re-adding an edge to the same target, after setting a
configuration flag on the first edge, leaves one edge with empty
configuration. -/
theorem c6_adddep_replaces_witness :
    mapLookup (((NewProject "r" "s").AddDependency (NewProject "r" "t")).1).dependencies "t"
        = some { Source := "r\ns", Target := "r\nt", config := [] } ∧
    ((((NewProject "r" "s").AddDependency (NewProject "r" "t")).1.setDepConfig "t" "line" "1").AddDependency
        (NewProject "r" "t")).1.dependencies.length = 1 := by
  refine ⟨(c6_adddep_replaces (NewProject "r" "s") (NewProject "r" "t") "line" "1").1, ?_⟩
  exact ((c6_adddep_replaces (NewProject "r" "s") (NewProject "r" "t") "line" "1").2.2.2.2).trans
    (by decide)

theorem string_length_zero_iff (s : String) : s.length = 0 ↔ s = "" := by
  cases s with
  | mk data =>
    constructor
    · intro h
      have hd : data = [] := List.length_eq_zero.mp h
      subst hd
      rfl
    · intro h
      have hd : data = [] := congrArg String.data h
      simp [String.length, hd]

theorem string_append_left_cancel {a b c : String} (h : a ++ b = a ++ c) : b = c := by
  have hd : a.data ++ b.data = a.data ++ c.data := by
    have h1 := congrArg String.data h
    simpa [String.data_append] using h1
  have hbc := List.append_cancel_left hd
  cases b; cases c
  simp only at hbc
  rw [hbc]

theorem mapLookup_append {α : Type} (m1 m2 : List (String × α)) (k : String) :
    mapLookup (m1 ++ m2) k =
      match mapLookup m1 k with
      | some v => some v
      | none => mapLookup m2 k := by
  induction m1 with
  | nil => simp [mapLookup]
  | cons kv rest ih =>
    by_cases h : kv.1 = k
    · simp [mapLookup, h]
    · simp [mapLookup, h, ih]

/-- Everything Projects.Get can do on success. -/
theorem get_cases {ps : Projects} {r n : String} {ps1 : Projects} {k : String}
    (h : Projects.Get ps r n = some (ps1, k)) :
    k = r ++ "\n" ++ n ∧ r ≠ "" ∧ n ≠ "" ∧
      ((∃ p, mapLookup ps.all (r ++ "\n" ++ n) = some p) ∧ ps1 = ps ∨
        mapLookup ps.all (r ++ "\n" ++ n) = none ∧
          ps1.all = ps.all ++ [(r ++ "\n" ++ n, NewProject r n)]) := by
  unfold Projects.Get at h
  by_cases hr : r.length = 0
  · rw [if_pos hr] at h; exact absurd h (by simp)
  · rw [if_neg hr] at h
    by_cases hn : n.length = 0
    · rw [if_pos hn] at h; exact absurd h (by simp)
    · rw [if_neg hn] at h
      simp only at h
      have hr' : r ≠ "" := fun he => hr (by rw [he]; rfl)
      have hn' : n ≠ "" := fun he => hn (by rw [he]; rfl)
      cases hl : mapLookup ps.all (r ++ "\n" ++ n) with
      | some p =>
        rw [hl] at h
        simp only [Option.some.injEq, Prod.mk.injEq] at h
        exact ⟨h.2.symm, hr', hn', Or.inl ⟨⟨p, rfl⟩, h.1.symm⟩⟩
      | none =>
        rw [hl] at h
        simp only [Option.some.injEq, Prod.mk.injEq] at h
        refine ⟨h.2.symm, hr', hn', Or.inr ⟨rfl, ?_⟩⟩
        rw [← h.1]

/-- After a successful Get, the key is bound in the registry. -/
theorem get_key_bound {ps : Projects} {r n : String} {ps1 : Projects} {k : String}
    (h : Projects.Get ps r n = some (ps1, k)) :
    ∃ p, mapLookup ps1.all k = some p := by
  rcases get_cases h with ⟨hk, hr, hn, hcase⟩
  subst hk
  rcases hcase with ⟨⟨p, hl⟩, rfl⟩ | ⟨hl, hall⟩
  · exact ⟨p, hl⟩
  · refine ⟨NewProject r n, ?_⟩
    rw [hall, mapLookup_append, hl]
    simp [mapLookup]

/-- Claim C1: a repeated Get with the same key returns the same node and
leaves the registry unchanged; the first Get under an absent key creates the
node; distinct names under one root give distinct nodes. -/
theorem c1_get_idempotent_distinct :
    (∀ (ps ps1 : Projects) (root name k : String),
      Projects.Get ps root name = some (ps1, k) →
      Projects.Get ps1 root name = some (ps1, k)) ∧
    (∀ (ps : Projects) (root name : String),
      root ≠ "" → name ≠ "" → mapLookup ps.all (root ++ "\n" ++ name) = none →
      Projects.Get ps root name =
        some ({ all := ps.all ++ [(root ++ "\n" ++ name, NewProject root name)] },
          root ++ "\n" ++ name)) ∧
    (∀ (ps ps1 ps2 : Projects) (root n1 n2 k1 k2 : String),
      Projects.Get ps root n1 = some (ps1, k1) →
      Projects.Get ps1 root n2 = some (ps2, k2) →
      n1 ≠ n2 → k1 ≠ k2) := by
  refine ⟨?_, ?_, ?_⟩
  · intro ps ps1 root name k h
    rcases get_cases h with ⟨hk, hr, hn, _⟩
    rcases get_key_bound h with ⟨p, hl⟩
    unfold Projects.Get
    rw [if_neg (fun h0 => hr ((string_length_zero_iff root).mp h0)),
      if_neg (fun h0 => hn ((string_length_zero_iff name).mp h0))]
    simp only
    rw [← hk, hl]
  · intro ps root name hr hn hl
    unfold Projects.Get
    rw [if_neg (fun h0 => hr ((string_length_zero_iff root).mp h0)),
      if_neg (fun h0 => hn ((string_length_zero_iff name).mp h0))]
    simp only
    rw [hl]
  · intro ps ps1 ps2 root n1 n2 k1 k2 h1 h2 hne
    rcases get_cases h1 with ⟨hk1, _, _, _⟩
    rcases get_cases h2 with ⟨hk2, _, _, _⟩
    subst hk1
    subst hk2
    intro he
    exact hne (string_append_left_cancel he)

/-- Witness for C1 at a concrete registry: getting (r, a) twice returns the
node created by the first call, and the key of (r, b) differs. -/
theorem c1_get_idempotent_distinct_witness :
    Projects.Get psW10 "r" "a" = some (psW10, "r\na") ∧
    decide (("r\na" : String) = "r\nb") = false := by
  constructor
  · exact c1_get_idempotent_distinct.1 NewProjects psW10 "r" "a" "r\na" rfl
  · exact decide_eq_false (c1_get_idempotent_distinct.2.2 NewProjects psW10
      { all := psW10.all ++ [("r\nb", NewProject "r" "b")] } "r" "a" "b" "r\na" "r\nb"
      rfl rfl (by decide))

theorem mapLookup_ne_none_iff_mem {α : Type} (m : List (String × α)) (k : String) :
    mapLookup m k ≠ none ↔ k ∈ m.map (fun kv => kv.1) := by
  induction m with
  | nil => simp [mapLookup]
  | cons kv rest ih =>
    by_cases h : kv.1 = k
    · simp [mapLookup, h]
    · simp only [mapLookup, if_neg h, List.map_cons, List.mem_cons, ih]
      constructor
      · exact Or.inr
      · rintro (he | hm)
        · exact absurd he.symm h
        · exact hm

/-- The registry invariant established by Get: every binding is a NewProject
stored under its own root-newline-name key, with both parts nonempty. -/
theorem built_invariant {ps : Projects} (h : Built ps) :
    ∀ kv ∈ ps.all,
      kv.1 = kv.2.Root ++ "\n" ++ kv.2.Name ∧ kv.2.Root ≠ "" ∧ kv.2.Name ≠ "" := by
  induction h with
  | nil => intro kv hkv; exact absurd hkv (by simp [NewProjects])
  | step _ hget ih =>
    rename_i ps' root name ps1 k _
    intro kv hkv
    rcases get_cases hget with ⟨hk, hr, hn, hcase⟩
    rcases hcase with ⟨_, rfl⟩ | ⟨_, hall⟩
    · exact ih kv hkv
    · rw [hall] at hkv
      rcases List.mem_append.mp hkv with hm | hm
      · exact ih kv hm
      · have : kv = (root ++ "\n" ++ name, NewProject root name) := by simpa using hm
        rw [this]
        exact ⟨rfl, hr, hn⟩

theorem nl_mem_key (r n : String) : '\n' ∈ (r ++ "\n" ++ n).data := by
  have hd : (r ++ "\n" ++ n).data = r.data ++ '\n' :: n.data := by
    simp [String.data_append]
  rw [hd]
  simp

theorem fullname_data (p : Project) :
    p.FullName.data = p.Root.data ++ ':' :: p.Name.data := by
  unfold Project.FullName
  simp [String.data_append]

/-- Claim C10 (amended): GetOrNil fails on the empty string; on a nonempty
string it returns a node exactly when the string is a registry key; and on a
registry populated only through Get whose roots and names are free of newline
characters, a node's bare Name and its colon-joined FullName are never keys,
so both look up as nil. -/
theorem c10_getornil_no_create :
    (∀ ps : Projects, Projects.GetOrNil ps "" = none) ∧
    (∀ (ps : Projects) (s : String), s ≠ "" →
      ((∃ p, Projects.GetOrNil ps s = some (some p)) ↔ s ∈ ps.keys)) ∧
    (∀ ps : Projects, Built ps →
      (∀ p ∈ ps.values, ¬ ('\n' ∈ p.Root.data) ∧ ¬ ('\n' ∈ p.Name.data)) →
      ∀ p ∈ ps.values,
        Projects.GetOrNil ps p.Name = some none ∧
        Projects.GetOrNil ps p.FullName = some none) := by
  refine ⟨?_, ?_, ?_⟩
  · intro ps; rfl
  · intro ps s hs
    unfold Projects.GetOrNil Projects.keys
    rw [if_neg (fun h0 => hs ((string_length_zero_iff s).mp h0))]
    rw [← mapLookup_ne_none_iff_mem ps.all s]
    cases hl : mapLookup ps.all s with
    | none => simp
    | some q => simp
  · intro ps hbuilt hnl p hp
    have hinv := built_invariant hbuilt
    rcases List.mem_map.mp hp with ⟨kv, hkv, rfl⟩
    have hpn : kv.2.Name ≠ "" := (hinv kv hkv).2.2
    have keyfree : ∀ s : String, ¬ ('\n' ∈ s.data) → mapLookup ps.all s = none := by
      intro s hsnl
      cases hl : mapLookup ps.all s with
      | none => rfl
      | some q =>
        exfalso
        have hmem : s ∈ ps.all.map (fun kv => kv.1) :=
          (mapLookup_ne_none_iff_mem ps.all s).mp (by rw [hl]; simp)
        rcases List.mem_map.mp hmem with ⟨kv', hkv', hskv⟩
        rcases hinv kv' hkv' with ⟨hk', _, _⟩
        apply hsnl
        rw [← hskv, hk']
        exact nl_mem_key _ _
    rcases hnl kv.2 hp with ⟨hrootnl, hnamenl⟩
    constructor
    · unfold Projects.GetOrNil
      rw [if_neg (fun h0 => hpn ((string_length_zero_iff kv.2.Name).mp h0)),
        keyfree kv.2.Name hnamenl]
    · have hfn : kv.2.FullName ≠ "" := by
        intro he
        have hed := congrArg String.data he
        rw [fullname_data] at hed
        simp at hed
      have hfnnl : ¬ ('\n' ∈ kv.2.FullName.data) := by
        rw [fullname_data]
        intro hmem
        rcases List.mem_append.mp hmem with hm | hm
        · exact hrootnl hm
        · rcases List.mem_cons.mp hm with he | hm2
          · exact absurd he (by decide)
          · exact hnamenl hm2
      unfold Projects.GetOrNil
      rw [if_neg (fun h0 => hfn ((string_length_zero_iff kv.2.FullName).mp h0)),
        keyfree kv.2.FullName hfnnl]

/-- Witness for C10: on the concrete one-node registry built by Get, the bare
name a and the full name r:a both look up as nil, the empty string panics, and
the key is the only hit. -/
theorem c10_getornil_no_create_witness :
    Projects.GetOrNil psW10 "a" = some none ∧
    Projects.GetOrNil psW10 "r:a" = some none ∧
    Projects.GetOrNil psW10 "" = none ∧
    ((Projects.GetOrNil psW10 "r\na").getD none).isSome = true := by
  have hb : Built psW10 :=
    @Built.step NewProjects "r" "a" psW10 "r\na" Built.nil rfl
  have h := c10_getornil_no_create.2.2 psW10 hb (by decide) (NewProject "r" "a")
    (List.mem_cons_self _ _)
  exact ⟨h.1, h.2, c10_getornil_no_create.1 psW10, rfl⟩

/-- Counterexample to C10 as stated: when a name contains a newline, a bare
name can coincide with another node's key, and GetOrNil then returns that
other node instead of nil. -/
theorem c10_counterexample :
    Projects.Get NewProjects "a" "b" = some (psNl1, "a\nb") ∧
    Projects.Get psNl1 "r" "a\nb" = some (psNl2, "r\na\nb") ∧
    (psNl2.getD "r\na\nb").Name = "a\nb" ∧
    Projects.GetOrNil psNl2 "a\nb" = some (some (NewProject "a" "b")) ∧
    ((Projects.GetOrNil psNl2 "a\nb").getD none).isSome = true := by
  exact ⟨rfl, rfl, rfl, rfl, rfl⟩

theorem dropLit_head {p : Char} {ps cs res : List Char}
    (h : dropLit (p :: ps) cs = some res) : ∃ cs', cs = p :: cs' := by
  cases cs with
  | nil => exact absurd h (by simp [dropLit])
  | cons c cs' =>
    refine ⟨cs', ?_⟩
    unfold dropLit at h
    by_cases hc : c = p
    · rw [hc]
    · rw [if_neg hc] at h
      exact absurd h (by simp)

/-- A line matched by the root regex cannot be matched by the nested-project
regex: it starts with the letter R, which is not a tree-drawing character. -/
theorem rootLine_no_proj {l : String} {n : String}
    (h : rootLineMatch l = some n) : projLineMatch l = none := by
  unfold rootLineMatch at h
  cases hd : dropLit ("Root project ".toList ++ [quoteChar]) l.toList with
  | none => rw [hd] at h; exact absurd h (by simp)
  | some rest =>
    have hhead : ∃ cs', l.toList = 'R' :: cs' := dropLit_head (p := 'R') (by exact hd)
    rcases hhead with ⟨cs', hl⟩
    unfold projLineMatch
    rw [hl]
    simp [List.takeWhile_cons, show isTreeChar 'R' = false from rfl]

theorem parseProjectsLines_rootAdded (lines : List String) :
    parseProjectsLines lines true = lines.filterMap projLineMatch := by
  induction lines with
  | nil => rfl
  | cons l rest ih =>
    simp only [parseProjectsLines, if_pos]
    rw [ih, List.filterMap_cons]
    cases projLineMatch l <;> simp

theorem parseProjectsLines_noRoot (lines : List String)
    (h : ∀ l ∈ lines, rootLineMatch l = none) :
    parseProjectsLines lines false = lines.filterMap projLineMatch := by
  induction lines with
  | nil => rfl
  | cons l rest ih =>
    have hl : rootLineMatch l = none := h l (List.mem_cons_self _ _)
    simp only [parseProjectsLines, if_neg, hl]
    rw [ih (fun x hx => h x (List.mem_cons_of_mem l hx)), List.filterMap_cons]
    cases projLineMatch l <;> simp

theorem parseProjectsLines_split (pre : List String) (lr : String)
    (suf : List String) (n : String)
    (hpre : ∀ l ∈ pre, rootLineMatch l = none) (hr : rootLineMatch lr = some n) :
    parseProjectsLines (pre ++ lr :: suf) false =
      pre.filterMap projLineMatch ++ n :: suf.filterMap projLineMatch := by
  induction pre with
  | nil =>
    simp only [List.nil_append, parseProjectsLines, hr, List.filterMap_nil]
    rw [rootLine_no_proj hr]
    rw [parseProjectsLines_rootAdded]
    simp
  | cons l pre' ih =>
    have hl : rootLineMatch l = none := hpre l (List.mem_cons_self _ _)
    have hstep : parseProjectsLines (l :: (pre' ++ lr :: suf)) false
        = (projLineMatch l).toList ++ parseProjectsLines (pre' ++ lr :: suf) false := by
      simp [parseProjectsLines, hl]
    rw [List.cons_append, hstep,
      ih (fun x hx => hpre x (List.mem_cons_of_mem l hx)), List.filterMap_cons]
    cases projLineMatch l <;> simp

/-- Claim C8 (amended): the list parser captures the first root declaration
and every nested-project line in file order, skipping everything else; the
root name comes first provided no nested-project line precedes the root line
(as in the scenario); with no root line the output is just the project
captures, possibly empty. -/
theorem c8_parse_projects :
    parseProjects "Root project 'app'\n+--- Project 'core'\n" = ["app", "core"] ∧
    parseProjects "" = [] ∧
    (∀ lines : List String, (∀ l ∈ lines, rootLineMatch l = none) →
      parseProjectsLines lines false = lines.filterMap projLineMatch) ∧
    (∀ (pre : List String) (lr : String) (suf : List String) (n : String),
      (∀ l ∈ pre, rootLineMatch l = none ∧ projLineMatch l = none) →
      rootLineMatch lr = some n →
      parseProjectsLines (pre ++ lr :: suf) false =
        n :: suf.filterMap projLineMatch) := by
  refine ⟨by decide, rfl, parseProjectsLines_noRoot, ?_⟩
  intro pre lr suf n hpre hr
  rw [parseProjectsLines_split pre lr suf n (fun l hl => (hpre l hl).1) hr]
  have hnil : pre.filterMap projLineMatch = [] :=
    List.filterMap_eq_nil_iff.mpr (fun l hl => (hpre l hl).2)
  rw [hnil]
  rfl

/-- Witness for C8: the amended root-first property at the scenario input. -/
theorem c8_parse_projects_witness :
    parseProjectsLines (["junk"] ++ "Root project 'app'" :: ["+--- Project 'core'"]) false
      = "app" :: ["+--- Project 'core'"].filterMap projLineMatch :=
  c8_parse_projects.2.2.2 ["junk"] "Root project 'app'" ["+--- Project 'core'"] "app"
    (by decide) rfl

/-- Counterexample to C8 as stated: a nested-project line before the root
declaration is emitted first, so the root module is not first even though a
root declaration is present. -/
theorem c8_counterexample :
    parseProjects "+--- Project 'core'\nRoot project 'app'\n" = ["core", "app"] ∧
    (parseProjects "+--- Project 'core'\nRoot project 'app'\n").head? = some "core" := by
  exact ⟨rfl, rfl⟩

theorem depLineStep_next (rootProj l : String) (stack : List pdEntry)
    (ps ps1 : Projects) (d : Nat) (nm k : String) (top : pdEntry)
    (rest : List pdEntry) (hne : l ≠ "") (hm : depMatch l = some (d, nm))
    (hget : Projects.Get ps rootProj nm = some (ps1, k))
    (hpop : popToParent d stack = some (top :: rest)) :
    depLineStep rootProj l stack ps =
      DepStep.next ({ proj := k, depth := d } :: top :: rest)
        (ps1.addDep top.proj k) := by
  unfold depLineStep
  rw [if_neg (fun h0 => hne ((string_length_zero_iff l).mp h0))]
  simp only [hm, hget, hpop]

theorem depLineStep_err (rootProj l : String) (stack : List pdEntry)
    (ps : Projects) (hne : l ≠ "") (hm : depMatch l = none) :
    depLineStep rootProj l stack ps =
      DepStep.err ("invalid dependency line: " ++ l) := by
  unfold depLineStep
  rw [if_neg (fun h0 => hne ((string_length_zero_iff l).mp h0))]
  simp only [hm]

theorem parseDepsLoop_fail (rootProj l : String) (rest : List String)
    (stack : List pdEntry) (ps : Projects) (hne : l ≠ "")
    (hm : depMatch l = none) :
    parseDepsLoop rootProj (l :: rest) parseState.parsingDeps stack ps =
      ParseResult.fail ("invalid dependency line: " ++ l) ps := by
  have herr := depLineStep_err rootProj l stack ps hne hm
  simp only [parseDepsLoop, herr]

/-- Claim C2: one parsingDeps line unwinds the stack by popping entries whose
depth is at least the new depth, records an edge from the project now on top
to the line's project, and pushes the new pair; the two-line depth-5 scenario
yields three nodes and exactly two edges both sourced from :app; the deeper
line nested under :core attaches to :core and not to :app. -/
theorem c2_tree_parse :
    (∀ (rootProj l : String) (stack : List pdEntry) (ps ps1 : Projects)
        (d : Nat) (nm k : String) (top : pdEntry) (rest : List pdEntry),
      l ≠ "" → depMatch l = some (d, nm) →
      Projects.Get ps rootProj nm = some (ps1, k) →
      popToParent d stack = some (top :: rest) →
      depLineStep rootProj l stack ps =
        DepStep.next ({ proj := k, depth := d } :: top :: rest)
          (ps1.addDep top.proj k)) ∧
    (resultPs (parseDeps NewProjects c2content1 "root")).map Projects.keys
        = some ["root\n:app", "root\n:core", "root\ncom.x:lib:1.0"] ∧
    (resultPs (parseDeps NewProjects c2content1 "root")).map Projects.edgeCount
        = some 2 ∧
    (resultPs (parseDeps NewProjects c2content1 "root")).map
        (fun ps => depKeysOf ps "root\n:app") = some [":core", "com.x:lib:1.0"] ∧
    (resultPs (parseDeps NewProjects c2content2 "root")).map
        (fun ps => (depKeysOf ps "root\n:app", depKeysOf ps "root\n:core"))
        = some ([":core"], ["com.x:lib:1.0"]) := by
  exact ⟨depLineStep_next, by decide, by decide, by decide, by decide⟩

/-- Witness for C2: the general step instantiated on the scenario line
adding :core under :app. -/
theorem c2_tree_parse_witness :
    depLineStep "root" "+--- project :core" [{ proj := "root\n:app", depth := 0 }] psApp
      = DepStep.next
          [{ proj := "root\n:core", depth := 5 }, { proj := "root\n:app", depth := 0 }]
          (psApp2.addDep "root\n:app" "root\n:core") :=
  c2_tree_parse.1 "root" "+--- project :core"
    [{ proj := "root\n:app", depth := 0 }] psApp psApp2 5 ":core" "root\n:core"
    { proj := "root\n:app", depth := 0 } [] (by decide) rfl rfl rfl

/-- Claim C3: in the parsingDeps state a nonempty line that the dependency
pattern does not match fails the parse with an error carrying the line
verbatim, and the registry mutated so far is kept; the scenario line of
tree-drawing characters only triggers it after :app and :core were created
and the :app to :core edge was recorded. -/
theorem c3_malformed_line :
    (∀ (rootProj l : String) (stack : List pdEntry) (ps : Projects),
      l ≠ "" → depMatch l = none →
      depLineStep rootProj l stack ps =
        DepStep.err ("invalid dependency line: " ++ l)) ∧
    (∀ (rootProj l : String) (rest : List String) (stack : List pdEntry)
        (ps : Projects),
      l ≠ "" → depMatch l = none →
      parseDepsLoop rootProj (l :: rest) parseState.parsingDeps stack ps =
        ParseResult.fail ("invalid dependency line: " ++ l) ps) ∧
    resultMsg (parseDeps NewProjects c3content "root")
        = some "invalid dependency line: | |" ∧
    (resultPs (parseDeps NewProjects c3content "root")).map Projects.keys
        = some ["root\n:app", "root\n:core"] ∧
    (resultPs (parseDeps NewProjects c3content "root")).map
        (fun ps => depKeysOf ps "root\n:app") = some [":core"] := by
  exact ⟨depLineStep_err, parseDepsLoop_fail, by decide, by decide, by decide⟩

/-- Witness for C3: the failing loop step instantiated on the scenario
malformed line, with the registry handed back untouched. -/
theorem c3_malformed_line_witness :
    parseDepsLoop "root" ["| |"] parseState.parsingDeps
        [{ proj := "root\n:core", depth := 5 }, { proj := "root\n:app", depth := 0 }]
        psApp2
      = ParseResult.fail "invalid dependency line: | |" psApp2 :=
  c3_malformed_line.2.1 "root" "| |" []
    [{ proj := "root\n:core", depth := 5 }, { proj := "root\n:app", depth := 0 }]
    psApp2 (by decide) rfl

end Archer
